import Mathlib

/-!
Verification development for the `starlight-site-graph` Astro integration.

The integration entry point (`src/unnamed/part_000`) wires a sitemap builder
into the Astro build lifecycle; `color.ts` holds the color / URL sanitization
helpers used by the graph front end.  Pure functions of the source are
translated directly; effectful lifecycle hooks are translated into explicit
state passing, with each fallible filesystem primitive (`fs.promises.access`,
`addMDContentFolder`, `writeFile`, ...) modelled by an `Except`-valued input
standing for "resolved or rejected".  The builder module
(`sitemap/build`, `sitemap/process`, imported by the entry point but not part
of the sources) is modelled from the specification where noted.
-/

set_option autoImplicit false

namespace SiteGraph

/-! ### Character-level string helpers -/

/-- Lower-case an ASCII character (used to model JavaScript case-insensitive
regex matching and URL scheme lowering). -/
def lowerChar (c : Char) : Char :=
  if 'A' ≤ c ∧ c ≤ 'Z' then Char.ofNat (c.toNat + 32) else c

/-- ASCII whitespace, modelling the characters `String.prototype.trim` and the
`\s` regex class act on in the source's usage. -/
def isSpaceChar (c : Char) : Bool :=
  c = ' ' ∨ c = '\t' ∨ c = '\n' ∨ c = '\r' ∨ c = '\x0b' ∨ c = '\x0c'

/-- Drop matching characters from both ends of a character list. -/
def trimCharsL (p : Char → Bool) (l : List Char) : List Char :=
  ((l.dropWhile p).reverse.dropWhile p).reverse

/-- Model of JavaScript `String.prototype.trim` on the source's inputs. -/
def jsTrim (s : String) : String :=
  ⟨trimCharsL isSpaceChar s.data⟩

/-- Does `hay` contain `needle` as a contiguous substring?  Models
JavaScript `String.prototype.includes`. -/
def containsSub (needle hay : List Char) : Bool :=
  decide (needle <:+: hay)

/-- Does `l` end with the suffix `suf`? -/
def endsL (l suf : List Char) : Bool :=
  decide (suf <:+ l)

/-! ### `color.ts`: sanitizeColorValue / getHexColor -/

/-- Model of the replacement `trimmed.replace(/\s*!important\s*$/i, '')` in
`sanitizeColorValue` (color.ts line 67): when the string ends with optional
whitespace, a case-insensitive `!important`, and optional whitespace, that
tail is removed; otherwise the string is unchanged. -/
def stripImportant (l : List Char) : List Char :=
  let r := l.reverse.dropWhile isSpaceChar
  if (r.take 10).map lowerChar = "tnatropmi!".data then
    (((r.drop 10).dropWhile isSpaceChar).reverse)
  else
    l

/-- Translation of `sanitizeColorValue` (color.ts lines 53-86).  The input is
`Option String`, `none` standing for the `null`/`undefined`/non-string inputs
guarded by the first check; the result is `Option String` with `none` for the
source's `null`. -/
def sanitizeColorValue (color : Option String) : Option String :=
  match color with
  | none => none
  | some c =>
    if c = "" then none
    else
      let trimmed := jsTrim c
      if trimmed.data.length = 0 then none
      else
        let cleaned : List Char := stripImportant trimmed.data
        if containsSub "var(".data cleaned then none
        else
          if cleaned = "none".data ∨ cleaned = "transparent".data ∨ cleaned = "inherit".data
              ∨ cleaned = "initial".data ∨ cleaned = "unset".data then
            if cleaned = "transparent".data then some "rgba(0, 0, 0, 0)" else none
          else some ⟨cleaned⟩

/-- Translation of `getHexColor` (color.ts lines 94-122).  The chroma-js
library call `chroma(sanitized).hex()` is external; it is modelled by the
parameter `chromaHex`, where `none` stands for the parse throwing and
`some h` for a successful parse producing hex string `h`.  The `catch`
branch (lines 104-119) only logs and substitutes the fallback. -/
def getHexColor (chromaHex : String → Option String) (color : Option String)
    (fallback : String) : String :=
  match sanitizeColorValue color with
  | none => fallback
  | some sanitized =>
    match chromaHex sanitized with
    | none => fallback
    | some h => h

/-! ### `color.ts`: sanitizeURL -/

/-- Scheme characters allowed after the first character of a URL scheme
(RFC 3986 / WHATWG URL). -/
def isSchemeChar (c : Char) : Bool :=
  ('a' ≤ c ∧ c ≤ 'z') ∨ ('A' ≤ c ∧ c ≤ 'Z') ∨ ('0' ≤ c ∧ c ≤ '9')
    ∨ c = '+' ∨ c = '-' ∨ c = '.'

/-- Scan for the remainder of a scheme: stops successfully at `':'`,
accumulating lowered characters. -/
def schemeTail (acc : List Char) : List Char → Option (List Char)
  | [] => none
  | c :: t =>
    if c = ':' then some (acc.reverse ++ [':'])
    else if isSchemeChar c then schemeTail (lowerChar c :: acc) t
    else none

/-- Extract the scheme (protocol including the trailing `':'`, lower-cased)
of an absolute URL string, if it has one. -/
def extractScheme (u : String) : Option String :=
  match u.data with
  | [] => none
  | c :: t =>
    if ('a' ≤ c ∧ c ≤ 'z') ∨ ('A' ≤ c ∧ c ≤ 'Z') then
      (schemeTail [lowerChar c] t).map fun l => (⟨l⟩ : String)
    else none

/-- Protocol of `new URL(u, base)` for a base whose protocol is
`baseProtocol` (`none` when no usable base is in scope): an absolute `u`
keeps its own scheme, a relative `u` resolves against the base, and parsing
throws (`none`) when neither provides a scheme.  This models the WHATWG URL
constructor used by `sanitizeURL`, at the granularity the source inspects
(only `parsedURL.protocol` is read). -/
def urlProtocol (baseProtocol : Option String) (u : String) : Option String :=
  match extractScheme u with
  | some p => some p
  | none => baseProtocol

/-- Translation of `sanitizeURL` (color.ts lines 252-269).  The URL
constructor is abstracted into `parse : String → Option String` returning the
protocol of the parsed URL, `none` when the constructor throws; `urlProtocol
base` is the concrete instance used for evaluation.  The input is
`Option String`, with `none` for `null`/`undefined`; the `!url` guard also
catches the empty string. -/
def sanitizeURL (parse : String → Option String) (url : Option String) : String :=
  match url with
  | none => "#"
  | some u =>
    if u = "" then "#"
    else
      match parse u with
      | none => "#"
      | some protocol =>
        if protocol = "http:" ∨ protocol = "https:" then u else "#"

/-! ### Integration entry point: trailing-slash collapse -/

/-- Translation of `const addTrailingSlash = config.trailingSlash !== 'never'`
(part_000 line 85), the value passed to `builder.setTrailingSlash`
(line 87). -/
def addTrailingSlash (trailingSlash : String) : Bool :=
  trailingSlash != "never"

/-! ### Sitemap builder (modelled from the spec)

The entry point imports `SiteMapBuilder` from `./sitemap/build` and
`processSitemap` from `./sitemap/process`; those modules are not among the
sources, so they are modelled from the specification (sections 3-4.6). -/

/-- Modelled from the spec: one outbound link discovered by the Link/Tag
Extractor (spec section 4.3), already resolved to a target id, with the
`external` flag for absolute `http(s)` targets. -/
structure RawLink where
  target : String
  external : Bool
deriving DecidableEq

/-- Modelled from the spec: the extracted record for one page (spec
section 4.3, `extract(fileRecord) -> \x7b title, tags, nodeStyle, edges \x7d`). -/
structure PageData where
  title : String
  tags : List String
  nodeStyle : Option String
  links : List RawLink
deriving DecidableEq

/-- Modelled from the spec: the builder's mutable accumulator, a mapping
keyed by canonical id (spec sections 4.4 and 9: "an arena of Nodes/Links
keyed by canonical id with last-writer-wins semantics"). -/
def Accumulator : Type := List (String × PageData)

instance : DecidableEq Accumulator := inferInstanceAs (DecidableEq (List (String × PageData)))

/-- Modelled from the spec: replace-on-rescan upsert (spec section 3
invariant: "re-scanning the same path with new content replaces, never
duplicates, the Node"). -/
def upsert (acc : Accumulator) (id : String) (data : PageData) : Accumulator :=
  match acc with
  | [] => [(id, data)]
  | (k, v) :: rest => if k = id then (id, data) :: rest else (k, v) :: upsert rest id data

/-- Modelled from the spec: `addPass(records)` (spec section 4.4): "for each
record, upserts the Node (replace semantics) and replaces that Node's entire
outbound edge set". -/
def addPass (acc : Accumulator) (recs : List (String × PageData)) : Accumulator :=
  recs.foldl (fun a r => upsert a r.1 r.2) acc

/-- Modelled from the spec: `addMDContentFolder(root, inclusionRules)` (spec
section 6) runs one scan+extract+assemble pass.  The Content Scanner and
Extractor are pure (spec section 4.2: a scan of an unchanged directory is a
deterministic enumeration), so the pass is modelled as `addPass` applied to
the record sequence `recs` extracted from the folder. -/
def addMDContentFolder (acc : Accumulator) (recs : List (String × PageData)) : Accumulator :=
  addPass acc recs

/-- Node kind (spec section 3). -/
inductive NodeKind
  | page
  | tag
  | external
  | unresolved
deriving DecidableEq

/-- Modelled from the spec: a graph node (spec section 3). -/
structure Node where
  id : String
  title : String
  tags : List String
  nodeStyle : Option String
  kind : NodeKind
deriving DecidableEq

/-- Link classification (spec section 3). -/
inductive LinkKind
  | internalResolved
  | internalUnresolved
  | external
  | tag
deriving DecidableEq

/-- Modelled from the spec: a directed edge (spec section 3). -/
structure Link where
  source : String
  target : String
  kind : LinkKind
deriving DecidableEq

/-- Modelled from the spec: the finalized serializable artifact (spec
section 3): nodes keyed by id, the link collection, and the derived backlink
index. -/
structure Sitemap where
  nodes : List (String × Node)
  links : List Link
  backlinks : List (String × List String)
deriving DecidableEq

/-- The ids of the assembled page nodes. -/
def pageIds (acc : Accumulator) : List String :=
  acc.map Prod.fst

/-- Order-preserving deduplication. -/
def dedupStrings (l : List String) : List String :=
  l.foldl (fun a s => if s ∈ a then a else a ++ [s]) []

/-- All distinct tag values across the accumulated pages. -/
def allTags (acc : Accumulator) : List String :=
  dedupStrings (acc.foldl (fun a e => a ++ e.2.tags) [])

/-- Modelled from the spec: the single authoritative resolution pass (spec
section 4.5): a link is `external` when extracted as such, otherwise
`internal-resolved` exactly when its target id exists among assembled
nodes. -/
def classifyLink (ids : List String) (src : String) (l : RawLink) : Link :=
  { source := src
    target := l.target
    kind :=
      if l.external then .external
      else if l.target ∈ ids then .internalResolved
      else .internalUnresolved }

/-- Add a node unless one with its id is already present (placeholders never
replace scanned nodes, spec section 3). -/
def addIfAbsent (nodes : List (String × Node)) (n : Node) : List (String × Node) :=
  if nodes.any (fun p => p.1 = n.id) then nodes else nodes ++ [(n.id, n)]

/-- Record `target → source` in the backlink index. -/
def addBacklink (bl : List (String × List String)) (target source : String) :
    List (String × List String) :=
  match bl with
  | [] => [(target, [source])]
  | (t, ss) :: rest =>
    if t = target then (t, if source ∈ ss then ss else ss ++ [source]) :: rest
    else (t, ss) :: addBacklink rest target source

/-- Modelled from the spec: the Backlink/Tag Deriver `finalize(accumulator)
-> Sitemap` (spec section 4.5): reclassifies every link against the assembled
node set, creates placeholder nodes for external/unresolved targets,
synthesizes one tag node per distinct tag and one `tag` edge per
(page, tag) pair, and derives the backlink index from `internal-resolved`
edges, excluding self-links (spec section 8). -/
def finalize (acc : Accumulator) : Sitemap :=
  let ids := pageIds acc
  let pageLinks : List Link :=
    acc.foldl (fun ls e => ls ++ e.2.links.map (classifyLink ids e.1)) []
  let tagLinks : List Link :=
    acc.foldl (fun ls e => ls ++ e.2.tags.map (fun t => ⟨e.1, t, .tag⟩)) []
  let links := pageLinks ++ tagLinks
  let pageNodes : List (String × Node) :=
    acc.map (fun e => (e.1, ⟨e.1, e.2.title, e.2.tags, e.2.nodeStyle, .page⟩))
  let withPlaceholders :=
    pageLinks.foldl (fun ns l =>
      match l.kind with
      | .external => addIfAbsent ns ⟨l.target, l.target, [], none, .external⟩
      | .internalUnresolved => addIfAbsent ns ⟨l.target, l.target, [], none, .unresolved⟩
      | _ => ns) pageNodes
  let withTags :=
    (allTags acc).foldl (fun ns t => addIfAbsent ns ⟨t, t, [], none, .tag⟩) withPlaceholders
  let backlinks :=
    links.foldl (fun bl l =>
      if l.kind = .internalResolved ∧ l.source ≠ l.target then addBacklink bl l.target l.source
      else bl) []
  { nodes := withTags, links := links, backlinks := backlinks }

/-- The object returned by `builder.process()`; only `toSitemap()` is exposed
(spec section 6). -/
structure ProcessedBuilder where
  sitemap : Sitemap
deriving DecidableEq

/-- Modelled from the spec: `process()` triggers the Backlink/Tag Deriver
(spec section 6). -/
def process (acc : Accumulator) : ProcessedBuilder :=
  ⟨finalize acc⟩

/-- `toSitemap()` returns the finalized Sitemap value (spec section 6). -/
def toSitemap (p : ProcessedBuilder) : Sitemap :=
  p.sitemap

/-- The builder state right after construction, before any scan pass. -/
def emptyAccumulator : Accumulator := []

/-- The empty sitemap `\x7b nodes: \x7b\x7d, links: [] \x7d`. -/
def emptySitemap : Sitemap :=
  { nodes := [], links := [], backlinks := [] }

/-- Shape validation of a supplied sitemap (spec section 4.6): node ids are
unique and every entry's node carries its key as id. -/
def validSitemap (s : Sitemap) : Bool :=
  decide ((s.nodes.map Prod.fst).Nodup) && s.nodes.all (fun p => p.2.id = p.1)

/-- Modelled from the spec: `processSitemap(sitemap, settings)` from
`./sitemap/process` (spec section 4.6): an externally supplied sitemap passes
through after shape validation; on validation failure the crawled-only data
is used (nothing was crawled on this path, so the empty sitemap) and the
build is never aborted. -/
def processSitemap (s : Sitemap) : Sitemap :=
  if validSitemap s then s else emptySitemap

/-! ### JSON serialization

`JSON.stringify(value, null, n)` (part_000 line 274) is a JavaScript builtin;
it is modelled here by an explicit JSON value type and two renderers: the
compact one used for `n = 0` and the indented one used for `n > 0`. -/

/-- JSON values, as far as the persisted sitemap artifact needs them. -/
inductive Json
  | null
  | jstr (s : String)
  | jnum (n : Int)
  | jbool (b : Bool)
  | arr (elems : List Json)
  | obj (fields : List (String × Json))

/-- Escape one character for a JSON string literal. -/
def escapeChar (c : Char) : List Char :=
  if c = '"' then ['\\', '"']
  else if c = '\\' then ['\\', '\\']
  else if c = '\n' then ['\\', 'n']
  else if c = '\r' then ['\\', 'r']
  else if c = '\t' then ['\\', 't']
  else [c]

/-- Render a JSON string literal. -/
def jsonQuote (s : String) : String :=
  ⟨'"' :: s.data.foldr (fun c acc => escapeChar c ++ acc) ['"']⟩

mutual

/-- Compact rendering: `JSON.stringify` with no indentation. -/
def renderCompact : Json → String
  | .null => "null"
  | .jstr s => jsonQuote s
  | .jnum n => toString n
  | .jbool b => if b then "true" else "false"
  | .arr es => "[" ++ renderCompactList es ++ "]"
  | .obj fs => "\x7b" ++ renderCompactFields fs ++ "\x7d"

/-- Compact rendering of array elements. -/
def renderCompactList : List Json → String
  | [] => ""
  | [x] => renderCompact x
  | x :: y :: rest => renderCompact x ++ "," ++ renderCompactList (y :: rest)

/-- Compact rendering of object fields. -/
def renderCompactFields : List (String × Json) → String
  | [] => ""
  | [f] => jsonQuote f.1 ++ ":" ++ renderCompact f.2
  | f :: g :: rest => jsonQuote f.1 ++ ":" ++ renderCompact f.2 ++ "," ++ renderCompactFields (g :: rest)

end

/-- A run of spaces. -/
def spaces (n : Nat) : String :=
  ⟨List.replicate n ' '⟩

mutual

/-- Indented rendering: `JSON.stringify` with a positive `indent`, at nesting
depth `level`. -/
def renderPretty (indent level : Nat) : Json → String
  | .null => "null"
  | .jstr s => jsonQuote s
  | .jnum n => toString n
  | .jbool b => if b then "true" else "false"
  | .arr [] => "[]"
  | .arr (e :: es) =>
    "[\n" ++ renderPrettyList indent (level + 1) (e :: es) ++ "\n" ++ spaces (indent * level) ++ "]"
  | .obj [] => "\x7b\x7d"
  | .obj (f :: fs) =>
    "\x7b\n" ++ renderPrettyFields indent (level + 1) (f :: fs) ++ "\n" ++ spaces (indent * level) ++ "\x7d"

/-- Indented rendering of array elements, one per line. -/
def renderPrettyList (indent level : Nat) : List Json → String
  | [] => ""
  | [x] => spaces (indent * level) ++ renderPretty indent level x
  | x :: y :: rest =>
    spaces (indent * level) ++ renderPretty indent level x ++ ",\n"
      ++ renderPrettyList indent level (y :: rest)

/-- Indented rendering of object fields, one per line. -/
def renderPrettyFields (indent level : Nat) : List (String × Json) → String
  | [] => ""
  | [f] => spaces (indent * level) ++ jsonQuote f.1 ++ ": " ++ renderPretty indent level f.2
  | f :: g :: rest =>
    spaces (indent * level) ++ jsonQuote f.1 ++ ": " ++ renderPretty indent level f.2 ++ ",\n"
      ++ renderPrettyFields indent level (g :: rest)

end

/-- Model of `JSON.stringify(value, null, indent)`: compact for `indent = 0`
(the ECMAScript gap parameter collapses to the empty string), indented
otherwise. -/
def jsonStringify (j : Json) (indent : Nat) : String :=
  if indent = 0 then renderCompact j else renderPretty indent 0 j

/-- Name of a node kind in the serialized artifact. -/
def kindName : NodeKind → String
  | .page => "page"
  | .tag => "tag"
  | .external => "external"
  | .unresolved => "unresolved"

/-- Name of a link classification in the serialized artifact. -/
def linkKindName : LinkKind → String
  | .internalResolved => "internal-resolved"
  | .internalUnresolved => "internal-unresolved"
  | .external => "external"
  | .tag => "tag"

/-- Serialize one node. -/
def nodeToJson (n : Node) : Json :=
  .obj [("id", .jstr n.id), ("title", .jstr n.title),
        ("tags", .arr (n.tags.map Json.jstr)),
        ("nodeStyle", match n.nodeStyle with | none => .null | some s => .jstr s),
        ("kind", .jstr (kindName n.kind))]

/-- Serialize one link. -/
def linkToJson (l : Link) : Json :=
  .obj [("source", .jstr l.source), ("target", .jstr l.target),
        ("classification", .jstr (linkKindName l.kind))]

/-- Serialize the sitemap artifact: top-level keys `nodes` (mapping id →
node) and `links` (sequence), with the derived backlink index alongside
(spec sections 3 and 6). -/
def sitemapToJson (s : Sitemap) : Json :=
  .obj [("nodes", .obj (s.nodes.map fun p => (p.1, nodeToJson p.2))),
        ("links", .arr (s.links.map linkToJson)),
        ("backlinks", .obj (s.backlinks.map fun p => (p.1, .arr (p.2.map Json.jstr))))]

/-! ### Lifecycle hook: `astro:config:setup` (sitemap generation section) -/

/-- The Astro command the hook observes. -/
inductive Command
  | dev
  | build
  | preview
  | sync
deriving DecidableEq

/-- Observable outcome of the sitemap-generation section of the
`astro:config:setup` hook (part_000 lines 106-161): the value of
`settings.sitemapConfig.sitemap`, the builder state, and the
`sitemapGenerationFailed` flag. -/
structure SetupResult where
  sitemap : Option Sitemap
  builder : Accumulator
  sitemapGenerationFailed : Bool
deriving DecidableEq

/-- Translation of the degraded-mode warning gate (part_000 lines 202-210):
the warning is logged exactly when `sitemapGenerationFailed` is set. -/
def degradedWarningLogged (r : SetupResult) : Bool :=
  r.sitemapGenerationFailed

/-- Translation of the sitemap-generation section of `astro:config:setup`
(part_000 lines 106-161).  `accessContentRoot` models
`fs.promises.access(contentRoot)` (line 118) and `mdScan` models
`builder.addMDContentFolder(...)` (line 138), an `error` carrying the builder
state at the moment of the throw.  The return type is `Except`: an `error`
would be an exception escaping the hook, and every fallible step here is
wrapped in a `try`/`catch`, so all paths return `ok`. -/
def configSetupSitemap (sitemapProvided : Bool) (providedSitemap : Option Sitemap)
    (command : Command) (accessContentRoot : Except String Unit)
    (mdScan : Except (String × Accumulator) Accumulator)
    (builder : Accumulator) : Except String SetupResult :=
  if sitemapProvided then
    .ok { sitemap := providedSitemap.map processSitemap, builder := builder,
          sitemapGenerationFailed := false }
  else if command = .dev ∨ command = .build then
    match accessContentRoot with
    | .error _ =>
      .ok { sitemap := some (toSitemap (process builder)), builder := builder,
            sitemapGenerationFailed := true }
    | .ok _ =>
      match mdScan with
      | .ok acc =>
        .ok { sitemap := some (toSitemap (process acc)), builder := acc,
              sitemapGenerationFailed := false }
      | .error (_, partialAcc) =>
        .ok { sitemap := some (toSitemap (process partialAcc)), builder := partialAcc,
              sitemapGenerationFailed := true }
  else
    .ok { sitemap := none, builder := builder, sitemapGenerationFailed := false }

/-! ### Lifecycle hook: `astro:build:done` -/

/-- Log events emitted by the `astro:build:done` hook. -/
inductive LogEvent
  | warnNoOutputPath
  | infoRetrievingHTML
  | infoFinishedHTML
  | warnHTMLFallback
  | infoSitemapCreated
  | errorWriteFailed
deriving DecidableEq

/-- Observable outcome of the `astro:build:done` hook: the log sequence, the
write target and payload, the sitemap value it settled on, and the hook's
completion (`error` = the re-thrown write failure). -/
structure BuildDoneResult where
  logs : List LogEvent
  writePath : String
  writeContent : String
  finalSitemap : Sitemap
  outcome : Except String Unit

/-- Translation of the `astro:build:done` hook (part_000 lines 236-293).
`accessOutput` models `fs.promises.access(outputPath)` (line 250),
`htmlScan` models `builder.addHTMLContentFolder(...)` (line 252, an `error`
carrying the builder state at the throw), and `writeResult` models the
`mkdir` + `writeFile` pair (lines 272-275).  `builder` is the builder state
on entry (after the Markdown pass) and `entrySitemap` the value of
`settings.sitemapConfig.sitemap` on entry (used when a sitemap was supplied).
The write failure is logged and then re-thrown (line 291); every failure in
the HTML retrieval section is caught (lines 256-268). -/
def buildDone (outputPath : String) (sitemapProvided : Bool) (entrySitemap : Sitemap)
    (builder : Accumulator) (accessOutput : Except String Unit)
    (htmlScan : Except (String × Accumulator) Accumulator)
    (debug : Bool) (writeResult : Except String Unit) : BuildDoneResult :=
  let logs0 : List LogEvent := if outputPath = "" then [.warnNoOutputPath] else []
  let step :=
    if sitemapProvided then (logs0, entrySitemap)
    else
      match accessOutput with
      | .error _ =>
        (logs0 ++ [.infoRetrievingHTML, .warnHTMLFallback], toSitemap (process builder))
      | .ok _ =>
        match htmlScan with
        | .ok acc =>
          (logs0 ++ [.infoRetrievingHTML, .infoFinishedHTML], toSitemap (process acc))
        | .error (_, partialAcc) =>
          (logs0 ++ [.infoRetrievingHTML, .warnHTMLFallback], toSitemap (process partialAcc))
  let path := outputPath ++ "/sitegraph/sitemap.json"
  let content := jsonStringify (sitemapToJson step.2) (if debug then 2 else 0)
  match writeResult with
  | .ok _ =>
    { logs := step.1 ++ [.infoSitemapCreated], writePath := path, writeContent := content,
      finalSitemap := step.2, outcome := .ok () }
  | .error e =>
    { logs := step.1 ++ [.errorWriteFailed], writePath := path, writeContent := content,
      finalSitemap := step.2, outcome := .error e }


/-! ### Accumulator observation helpers (for the verification) -/

/-- First-occurrence lookup in the accumulator. -/
def lookupAcc (acc : Accumulator) (k : String) : Option PageData :=
  match acc with
  | [] => none
  | (k', v) :: t => if k' = k then some v else lookupAcc t k

/-- The accumulator's key sequence. -/
def accKeys (acc : Accumulator) : List String :=
  acc.map Prod.fst

/-- Last value recorded for a key in a record sequence (last-writer-wins). -/
def lastValue (recs : List (String × PageData)) (k : String) : Option PageData :=
  recs.foldl (fun r e => if e.1 = k then some e.2 else r) none

/-! ### Path Normalizer (modelled from the spec)

The Path Normalizer lives in the builder module, which is not among the
sources; it is modelled from spec section 4.1:
`normalize(rawPath, contentRoot, basePath, trailingSlashPolicy) ->
canonicalId` strips the content root prefix and the file extension,
collapses an `index` filename to its parent directory's id, prefixes with
`basePath` (spec section 2 also has the normalizer fold base-path-prefixed
link forms into the same canonical identity), and applies the
trailing-slash policy uniformly. -/

/-- Slash test. -/
def isSlash (c : Char) : Bool :=
  c = '/'

/-- Drop leading and trailing slashes of a character list. -/
def trimSlashesL (l : List Char) : List Char :=
  trimCharsL isSlash l

/-- Modelled from the spec: `trimSlashes` from `./sitemap/util` (imported at
part_000 line 10, used on directory paths at line 77): strips leading and
trailing slashes. -/
def trimSlashes (s : String) : String :=
  ⟨trimSlashesL s.data⟩

/-- Does `l` start with `pre`? -/
def startsL (l pre : List Char) : Bool :=
  decide (pre <+: l)

/-- Strip the content root prefix (spec section 4.1). -/
def stripRoot (root q : List Char) : List Char :=
  if root = [] then q
  else if startsL q (root ++ ['/']) then q.drop (root.length + 1)
  else if q = root then []
  else q

/-- Strip the file extension of the scanned formats (spec section 2: files
carry "format hint: Markdown or HTML"). -/
def stripKnownExt (q : List Char) : List Char :=
  if endsL q ".md".data then q.take (q.length - 3)
  else if endsL q ".mdx".data then q.take (q.length - 4)
  else if endsL q ".html".data then q.take (q.length - 5)
  else q

/-- Collapse an `index` filename to its parent directory's id (spec
section 4.1). -/
def stripIndexSeg (q : List Char) : List Char :=
  if q = "index".data then []
  else if endsL q "/index".data then q.take (q.length - 6)
  else q

/-- The canonical core of a raw path: root-stripped, extension-stripped,
index-collapsed, slash-trimmed. -/
def coreL (root p : List Char) : List Char :=
  trimSlashesL (stripIndexSeg (stripKnownExt (stripRoot root (trimSlashesL p))))

/-- Prefix with the base path, without duplicating an already present base
prefix (spec sections 2 and 4.1). -/
def joinBase (base q : List Char) : List Char :=
  if base = [] then q
  else if q = [] then base
  else if q = base ∨ startsL q (base ++ ['/']) then q
  else base ++ '/' :: q

/-- The canonical id before the trailing-slash policy is applied. -/
def preSlashL (root base p : List Char) : List Char :=
  joinBase base (coreL root p)

/-- Character-list normalizer. -/
def normalizeL (root base : List Char) (slash : Bool) (p : List Char) : List Char :=
  let q := preSlashL root base p
  if slash ∧ q ≠ [] then q ++ ['/'] else q

/-- Modelled from the spec: the Path Normalizer contract
`normalize(rawPath, contentRoot, basePath, trailingSlashPolicy)` of spec
section 4.1, with `trailingSlash = true` for the `always` policy and `false`
for `never`. -/
def normalize (rawPath contentRoot basePath : String) (trailingSlash : Bool) : String :=
  ⟨normalizeL contentRoot.data basePath.data trailingSlash rawPath.data⟩

/-- A sane base path: no surrounding slashes, and it does not itself look
like a file of a scanned format or an index segment. -/
def ValidBasePath (base : List Char) : Prop :=
  trimSlashesL base = base ∧ stripKnownExt base = base ∧ stripIndexSeg base = base

/-- A valid raw path for the fixed configuration: its canonical core is free
of residual extension or index segments (no file stem of the form `x.md`,
`x/index`, ... survives normalization), and the content root does not
reappear as a prefix of the produced canonical id. -/
def ValidRawPath (root base p : List Char) : Prop :=
  stripKnownExt (coreL root p) = coreL root p ∧
    stripIndexSeg (coreL root p) = coreL root p ∧
    stripRoot root (joinBase base (coreL root p)) = joinBase base (coreL root p)

instance (base : List Char) : Decidable (ValidBasePath base) := by
  unfold ValidBasePath; infer_instance

instance (root base p : List Char) : Decidable (ValidRawPath root base p) := by
  unfold ValidRawPath; infer_instance

/-! ### Helper lemmas and claim theorems -/


theorem head?_dropWhile (p : Char → Bool) (l : List Char) :
    ∀ a ∈ (l.dropWhile p).head?, p a = false := by
  induction l with
  | nil => intro a h; simp at h
  | cons x t ih =>
    intro a h
    rw [List.dropWhile_cons] at h
    by_cases hx : p x
    · rw [if_pos hx] at h; exact ih a h
    · rw [if_neg hx] at h
      simp only [List.head?_cons, Option.mem_def, Option.some.injEq] at h
      subst h
      exact Bool.eq_false_iff.mpr hx

theorem dropWhile_eq_self_of_head? (p : Char → Bool) (l : List Char)
    (h : ∀ a ∈ l.head?, p a = false) : l.dropWhile p = l := by
  cases l with
  | nil => rfl
  | cons x t =>
    rw [List.dropWhile_cons, if_neg]
    exact fun hx => by simpa [hx] using h x rfl

theorem dropWhile_parts_of_trim (p : Char → Bool) (l : List Char)
    (h : trimCharsL p l = l) : l.dropWhile p = l ∧ l.reverse.dropWhile p = l.reverse := by
  have hdl : l.dropWhile p = l := by
    have hlen1 : (trimCharsL p l).length ≤ (l.dropWhile p).length := by
      unfold trimCharsL
      calc (((l.dropWhile p).reverse.dropWhile p).reverse).length
          = ((l.dropWhile p).reverse.dropWhile p).length := by rw [List.length_reverse]
        _ ≤ (l.dropWhile p).reverse.length := (List.dropWhile_suffix p).length_le
        _ = (l.dropWhile p).length := by rw [List.length_reverse]
    rw [h] at hlen1
    exact (List.dropWhile_suffix p).eq_of_length
      (Nat.le_antisymm (List.dropWhile_suffix p).length_le hlen1)
  refine ⟨hdl, ?_⟩
  have h2 : ((l.reverse.dropWhile p).reverse) = l := by
    unfold trimCharsL at h; rw [hdl] at h; exact h
  calc l.reverse.dropWhile p = ((l.reverse.dropWhile p).reverse).reverse := by
        rw [List.reverse_reverse]
    _ = l.reverse := by rw [h2]

theorem trim_of_parts (p : Char → Bool) (l : List Char)
    (h1 : l.dropWhile p = l) (h2 : l.reverse.dropWhile p = l.reverse) :
    trimCharsL p l = l := by
  unfold trimCharsL
  rw [h1, h2, List.reverse_reverse]

theorem trim_idem (p : Char → Bool) (l : List Char) :
    trimCharsL p (trimCharsL p l) = trimCharsL p l := by
  apply trim_of_parts
  · -- head of trim fails p
    apply dropWhile_eq_self_of_head?
    intro a ha
    unfold trimCharsL at ha
    rw [List.head?_reverse] at ha
    -- a is getLast? of dropWhile p (l.dropWhile p).reverse
    set m := (l.dropWhile p).reverse with hm
    rcases hd : m.dropWhile p with _ | ⟨x, t⟩
    · rw [hd] at ha; simp at ha
    · have hne : m.dropWhile p ≠ [] := by rw [hd]; simp
      obtain ⟨pre, hpre⟩ := List.dropWhile_suffix (l := m) p
      have : m.getLast? = (m.dropWhile p).getLast? := by
        conv_lhs => rw [← hpre]
        exact List.getLast?_append_of_ne_nil pre hne
      rw [← this] at ha
      have : m.getLast? = (l.dropWhile p).head? := by
        rw [hm, List.getLast?_reverse]
      rw [this] at ha
      exact head?_dropWhile p l a ha
  · -- reverse of trim: dropWhile idempotent
    unfold trimCharsL
    rw [List.reverse_reverse]
    apply dropWhile_eq_self_of_head?
    exact head?_dropWhile p _

theorem trim_snoc (o : List Char) (ho : trimSlashesL o = o) (hne : o ≠ []) :
    trimSlashesL (o ++ ['/']) = o := by
  obtain ⟨h1, h2⟩ := dropWhile_parts_of_trim isSlash o ho
  unfold trimSlashesL trimCharsL
  have hd : (o ++ ['/']).dropWhile isSlash = o ++ ['/'] := by
    cases o with
    | nil => exact absurd rfl hne
    | cons x t =>
      have hx : isSlash x = false := by
        by_contra hc
        have hx' : isSlash x = true := by revert hc; cases isSlash x <;> simp
        rw [List.dropWhile_cons, if_pos hx'] at h1
        have := congrArg List.length h1
        have hle := (List.dropWhile_suffix (l := t) isSlash).length_le
        simp at this
        omega
      rw [List.cons_append, List.dropWhile_cons, if_neg (by simp [hx])]
  rw [hd]
  have hrev : (o ++ ['/']).reverse = '/' :: o.reverse := by
    rw [List.reverse_append]; rfl
  rw [hrev, List.dropWhile_cons, if_pos (by simp [isSlash]), h2, List.reverse_reverse]

theorem trim_join (base c : List Char) (hb : trimSlashesL base = base)
    (hc : trimSlashesL c = c) (hbne : base ≠ []) (hcne : c ≠ []) :
    trimSlashesL (base ++ '/' :: c) = base ++ '/' :: c := by
  obtain ⟨hb1, hb2⟩ := dropWhile_parts_of_trim isSlash base hb
  obtain ⟨hc1, hc2⟩ := dropWhile_parts_of_trim isSlash c hc
  apply trim_of_parts
  · cases base with
    | nil => exact absurd rfl hbne
    | cons x t =>
      have hx : isSlash x = false := by
        by_contra hcon
        have hx' : isSlash x = true := by revert hcon; cases isSlash x <;> simp
        rw [List.dropWhile_cons, if_pos hx'] at hb1
        have := congrArg List.length hb1
        have hle := (List.dropWhile_suffix (l := t) isSlash).length_le
        simp at this
        omega
      rw [List.cons_append, List.dropWhile_cons, if_neg (by simp [hx])]
  · rw [List.reverse_append, List.reverse_cons, List.append_assoc, List.singleton_append]
    cases hrc : c.reverse with
    | nil => exact absurd (by simpa using congrArg List.reverse hrc) hcne
    | cons y s =>
      have hy : isSlash y = false := by
        rw [hrc] at hc2
        by_contra hcon
        have hy' : isSlash y = true := by revert hcon; cases isSlash y <;> simp
        rw [List.dropWhile_cons, if_pos hy'] at hc2
        have := congrArg List.length hc2
        have hle := (List.dropWhile_suffix (l := s) isSlash).length_le
        simp at this
        omega
      rw [List.cons_append, List.dropWhile_cons, if_neg (by simp [hy])]

theorem suffix_join_no_slash (ext b c : List Char) (hs : '/' ∉ ext) :
    ext <:+ (b ++ '/' :: c) ↔ ext <:+ c := by
  constructor
  · intro h
    have hp : ext.reverse <+: (b ++ '/' :: c).reverse := List.reverse_prefix.mpr h
    rw [List.reverse_append, List.reverse_cons] at hp
    have htake := List.prefix_iff_eq_take.mp hp
    rw [List.take_append_eq_append_take] at htake
    by_cases hlen : ext.length ≤ c.length
    · have h0 : ext.reverse.length - (c.reverse ++ ['/']).length = 0 := by simp; omega
      rw [h0] at htake
      simp only [List.take_zero, List.append_nil] at htake
      rw [List.take_append_eq_append_take] at htake
      have h1 : ext.reverse.length - c.reverse.length = 0 := by simp; omega
      rw [h1] at htake
      simp only [List.take_zero, List.append_nil] at htake
      have : ext.reverse <+: c.reverse := by
        rw [htake]; exact List.take_prefix _ _
      exact List.reverse_prefix.mp this
    · exfalso
      have h1 : (c.reverse ++ ['/']).take ext.reverse.length = c.reverse ++ ['/'] :=
        List.take_of_length_le (by simp; omega)
      rw [h1] at htake
      have hmem : '/' ∈ ext.reverse := by
        rw [htake, List.append_assoc]
        exact List.mem_append_right _ (List.mem_append_left _ (List.mem_cons_self _ _))
      exact hs (List.mem_reverse.mp hmem)
  · intro h
    exact (h.trans (List.suffix_cons '/' c)).trans (List.suffix_append b ('/' :: c))

theorem suffix_join_slash_head (T b c : List Char) (hs : '/' ∉ T) :
    ('/' :: T) <:+ (b ++ '/' :: c) ↔ (('/' :: T) <:+ c ∨ c = T) := by
  constructor
  · intro h
    have hp : ('/' :: T).reverse <+: (b ++ '/' :: c).reverse := List.reverse_prefix.mpr h
    rw [List.reverse_append, List.reverse_cons, List.reverse_cons] at hp
    have htake := List.prefix_iff_eq_take.mp hp
    rw [List.take_append_eq_append_take] at htake
    rcases Nat.lt_trichotomy (T.reverse ++ ['/']).length (c.reverse ++ ['/']).length with hlt | heq | hgt
    · left
      have h0 : (T.reverse ++ ['/']).length - (c.reverse ++ ['/']).length = 0 := by omega
      rw [h0] at htake
      simp only [List.take_zero, List.append_nil] at htake
      rw [List.take_append_eq_append_take] at htake
      have hT : T.length < c.length := by simpa using hlt
      have h1 : (T.reverse ++ ['/']).length - c.reverse.length = 0 := by simp; omega
      have h2 : (T.reverse ++ ['/']).length = T.length + 1 := by simp
      rw [h1] at htake
      simp only [List.take_zero, List.append_nil] at htake
      apply List.reverse_prefix.mp
      rw [List.reverse_cons, htake]
      exact List.take_prefix _ _
    · right
      have h0 : (T.reverse ++ ['/']).length - (c.reverse ++ ['/']).length = 0 := by omega
      rw [h0] at htake
      simp only [List.take_zero, List.append_nil] at htake
      have h1 : (c.reverse ++ ['/']).take (T.reverse ++ ['/']).length = c.reverse ++ ['/'] := by
        apply List.take_of_length_le; omega
      rw [h1] at htake
      have : T.reverse = c.reverse := List.append_cancel_right htake
      have := congrArg List.reverse this
      simpa using this.symm
    · exfalso
      have h1 : (c.reverse ++ ['/']).take (T.reverse ++ ['/']).length = c.reverse ++ ['/'] := by
        apply List.take_of_length_le; omega
      rw [h1] at htake
      have hcl : c.length < T.length := by simpa using hgt
      have hpos := congrArg (fun l => l[c.length]?) htake
      simp only at hpos
      have hL : (T.reverse ++ ['/'])[c.length]? = T.reverse[c.length]? := by
        rw [List.getElem?_append]
        simp only [List.length_reverse]
        rw [if_pos hcl]
      have hR : ((c.reverse ++ ['/']) ++ (b.reverse.take ((T.reverse ++ ['/']).length - (c.reverse ++ ['/']).length)))[c.length]?
          = some '/' := by
        rw [List.getElem?_append]
        rw [if_pos (by simp)]
        rw [List.getElem?_append_right (by simp)]
        simp
      rw [hL, hR] at hpos
      have hmem : '/' ∈ T.reverse := by
        obtain ⟨hn, he⟩ := List.getElem?_eq_some.mp hpos
        rw [← he]
        exact List.getElem_mem hn
      exact hs (List.mem_reverse.mp hmem)
  · rintro (h | rfl)
    · exact (h.trans (List.suffix_cons '/' c)).trans (List.suffix_append b ('/' :: c))
    · exact List.suffix_append b ('/' :: c)

theorem endsL_false_of_stripKnownExt (c : List Char) (h : stripKnownExt c = c) :
    endsL c ".md".data = false ∧ endsL c ".mdx".data = false ∧ endsL c ".html".data = false := by
  unfold stripKnownExt at h
  by_cases h1 : endsL c ".md".data = true
  · exfalso
    rw [if_pos h1] at h
    have hsuf : (".md".data : List Char) <:+ c := of_decide_eq_true h1
    have hlen := hsuf.length_le
    have := congrArg List.length h
    simp at this hlen
    omega
  · rw [if_neg h1] at h
    by_cases h2 : endsL c ".mdx".data = true
    · exfalso
      rw [if_pos h2] at h
      have hsuf : (".mdx".data : List Char) <:+ c := of_decide_eq_true h2
      have hlen := hsuf.length_le
      have := congrArg List.length h
      simp at this hlen
      omega
    · rw [if_neg h2] at h
      by_cases h3 : endsL c ".html".data = true
      · exfalso
        rw [if_pos h3] at h
        have hsuf : (".html".data : List Char) <:+ c := of_decide_eq_true h3
        have hlen := hsuf.length_le
        have := congrArg List.length h
        simp at this hlen
        omega
      · exact ⟨Bool.eq_false_iff.mpr h1, Bool.eq_false_iff.mpr h2, Bool.eq_false_iff.mpr h3⟩

theorem stripIndexSeg_facts (c : List Char) (hne : c ≠ []) (h : stripIndexSeg c = c) :
    c ≠ "index".data ∧ endsL c "/index".data = false := by
  unfold stripIndexSeg at h
  by_cases h1 : c = "index".data
  · exfalso
    rw [if_pos h1] at h
    exact hne h.symm
  · rw [if_neg h1] at h
    by_cases h2 : endsL c "/index".data = true
    · exfalso
      rw [if_pos h2] at h
      have hsuf : ("/index".data : List Char) <:+ c := of_decide_eq_true h2
      have hlen := hsuf.length_le
      have := congrArg List.length h
      simp at this hlen
      omega
    · exact ⟨h1, Bool.eq_false_iff.mpr h2⟩

theorem stripKnownExt_join (b c : List Char) (hc : stripKnownExt c = c) :
    stripKnownExt (b ++ '/' :: c) = b ++ '/' :: c := by
  obtain ⟨h1, h2, h3⟩ := endsL_false_of_stripKnownExt c hc
  have e1 : endsL (b ++ '/' :: c) ".md".data = endsL c ".md".data := by
    unfold endsL
    exact decide_eq_decide.mpr (suffix_join_no_slash _ b c (by decide))
  have e2 : endsL (b ++ '/' :: c) ".mdx".data = endsL c ".mdx".data := by
    unfold endsL
    exact decide_eq_decide.mpr (suffix_join_no_slash _ b c (by decide))
  have e3 : endsL (b ++ '/' :: c) ".html".data = endsL c ".html".data := by
    unfold endsL
    exact decide_eq_decide.mpr (suffix_join_no_slash _ b c (by decide))
  unfold stripKnownExt
  rw [e1, e2, e3, h1, h2, h3]
  simp

theorem stripIndexSeg_join (b c : List Char) (hcne : c ≠ [])
    (hc : stripIndexSeg c = c) : stripIndexSeg (b ++ '/' :: c) = b ++ '/' :: c := by
  obtain ⟨hidx, hends⟩ := stripIndexSeg_facts c hcne hc
  have hslash : '/' ∈ b ++ '/' :: c := List.mem_append_right _ (List.mem_cons_self _ _)
  have hne1 : b ++ '/' :: c ≠ "index".data := by
    intro heq
    rw [heq] at hslash
    exact absurd hslash (by decide)
  have hne2 : endsL (b ++ '/' :: c) "/index".data = false := by
    apply Bool.eq_false_iff.mpr
    intro hcon
    have hsuf : ("/index".data : List Char) <:+ (b ++ '/' :: c) := of_decide_eq_true hcon
    have : ('/' :: "index".data) <:+ (b ++ '/' :: c) := hsuf
    rcases (suffix_join_slash_head "index".data b c (by decide)).mp this with hl | hr
    · have : endsL c "/index".data = true := decide_eq_true hl
      rw [this] at hends; exact absurd hends (by simp)
    · exact hidx hr
  unfold stripIndexSeg
  rw [if_neg hne1, hne2]
  simp

theorem joinBase_shape (base c : List Char) :
    joinBase base c = c ∨ (c = [] ∧ joinBase base c = base ∧ base ≠ [])
      ∨ (joinBase base c = base ++ '/' :: c ∧ base ≠ [] ∧ c ≠ []) := by
  unfold joinBase
  by_cases h1 : base = []
  · rw [if_pos h1]; left; rfl
  · rw [if_neg h1]
    by_cases h2 : c = []
    · rw [if_pos h2]; right; left; exact ⟨h2, rfl, h1⟩
    · rw [if_neg h2]
      by_cases h3 : c = base ∨ startsL c (base ++ ['/']) = true
      · rw [if_pos h3]; left; rfl
      · rw [if_neg h3]; right; right; exact ⟨rfl, h1, h2⟩

theorem coreL_trim (root p : List Char) : trimSlashesL (coreL root p) = coreL root p := by
  unfold coreL trimSlashesL
  exact trim_idem _ _

theorem joinBase_fix (base o : List Char)
    (h : o = base ∨ startsL o (base ++ ['/']) = true ∨ base = []) :
    joinBase base o = o := by
  unfold joinBase
  rcases h with rfl | h | rfl
  · by_cases h1 : o = []
    · rw [if_pos h1, h1]
    · rw [if_neg h1, if_neg h1, if_pos (Or.inl rfl)]
  · by_cases h1 : base = []
    · rw [if_pos h1]
    · rw [if_neg h1]
      by_cases h2 : o = []
      · exfalso
        rw [h2] at h
        have : (base ++ ['/']) <+: ([] : List Char) := of_decide_eq_true h
        have := this.length_le
        simp at this
      · rw [if_neg h2, if_pos (Or.inr h)]
  · rw [if_pos rfl]

theorem preSlash_fix (root base p : List Char) (slash : Bool)
    (hbase : ValidBasePath base) (hp : ValidRawPath root base p) :
    preSlashL root base (normalizeL root base slash p) = preSlashL root base p := by
  obtain ⟨hbase_trim, hbase_ext, hbase_idx⟩ := hbase
  obtain ⟨hext, hidx, hroot⟩ := hp
  have hc_trim : trimSlashesL (coreL root p) = coreL root p := coreL_trim root p
  -- facts about the joined canonical id
  have ho_trim : trimSlashesL (preSlashL root base p) = preSlashL root base p := by
    unfold preSlashL
    rcases joinBase_shape base (coreL root p) with h | ⟨hc0, h, hb0⟩ | ⟨h, hb0, hc0⟩
    · rw [h]; exact hc_trim
    · rw [h]; exact hbase_trim
    · rw [h]; exact trim_join base _ hbase_trim hc_trim hb0 hc0
  have ho_ext : stripKnownExt (preSlashL root base p) = preSlashL root base p := by
    unfold preSlashL
    rcases joinBase_shape base (coreL root p) with h | ⟨hc0, h, hb0⟩ | ⟨h, hb0, hc0⟩
    · rw [h]; exact hext
    · rw [h]; exact hbase_ext
    · rw [h]; exact stripKnownExt_join base _ hext
  have ho_idx : stripIndexSeg (preSlashL root base p) = preSlashL root base p := by
    unfold preSlashL
    rcases joinBase_shape base (coreL root p) with h | ⟨hc0, h, hb0⟩ | ⟨h, hb0, hc0⟩
    · rw [h]; exact hidx
    · rw [h]; exact hbase_idx
    · rw [h]; exact stripIndexSeg_join base _ hc0 hidx
  have ho_root : stripRoot root (preSlashL root base p) = preSlashL root base p := hroot
  have ho_join : joinBase base (preSlashL root base p) = preSlashL root base p := by
    unfold preSlashL
    rcases joinBase_shape base (coreL root p) with h | ⟨hc0, h, hb0⟩ | ⟨h, hb0, hc0⟩
    · rw [h]
      -- joinBase is idempotent when its result was the untouched core
      have : joinBase base (coreL root p) = coreL root p := h
      unfold joinBase at this ⊢
      by_cases h1 : base = []
      · rw [if_pos h1]
      · rw [if_neg h1] at this ⊢
        by_cases h2 : coreL root p = []
        · exfalso
          rw [if_pos h2] at this
          exact h1 (this.trans h2)
        · rw [if_neg h2] at this ⊢
          by_cases h3 : coreL root p = base ∨ startsL (coreL root p) (base ++ ['/']) = true
          · rw [if_pos h3]
          · exfalso
            rw [if_neg h3] at this
            have := congrArg List.length this
            simp at this
            omega
    · rw [h]
      exact joinBase_fix base base (Or.inl rfl)
    · rw [h]
      apply joinBase_fix
      right; left
      apply decide_eq_true
      have : base ++ '/' :: coreL root p = (base ++ ['/']) ++ coreL root p := by
        rw [List.append_assoc]; rfl
      rw [this]
      exact List.prefix_append _ _
  -- pass 2 computes the same canonical id
  have step1 : trimSlashesL (normalizeL root base slash p) = preSlashL root base p := by
    unfold normalizeL
    by_cases hcond : slash ∧ preSlashL root base p ≠ []
    · rw [if_pos hcond]
      exact trim_snoc _ ho_trim hcond.2
    · rw [if_neg hcond]
      exact ho_trim
  show joinBase base (coreL root (normalizeL root base slash p)) = preSlashL root base p
  unfold coreL
  rw [step1, ho_root, ho_ext, ho_idx]
  rw [show trimSlashesL (preSlashL root base p) = preSlashL root base p from ho_trim]
  exact ho_join

theorem normalizeL_idem (root base : List Char) (slash : Bool) (p : List Char)
    (hbase : ValidBasePath base) (hp : ValidRawPath root base p) :
    normalizeL root base slash (normalizeL root base slash p) = normalizeL root base slash p := by
  have hfix := preSlash_fix root base p slash hbase hp
  show (let q := preSlashL root base (normalizeL root base slash p);
        if slash = true ∧ q ≠ [] then q ++ ['/'] else q) = normalizeL root base slash p
  rw [hfix]
  rfl

theorem accKeys_upsert (l : Accumulator) (k : String) (v : PageData) :
    accKeys (upsert l k v) = if k ∈ accKeys l then accKeys l else accKeys l ++ [k] := by
  induction l with
  | nil => simp [upsert, accKeys]
  | cons e t ih =>
    obtain ⟨k', v'⟩ := e
    by_cases hk : k' = k
    · subst hk
      simp [upsert, accKeys]
    · simp only [upsert, if_neg hk, accKeys, List.map_cons] at ih ⊢
      rw [ih]
      have : (k ∈ k' :: List.map Prod.fst t) ↔ (k ∈ List.map Prod.fst t) := by
        constructor
        · intro h
          rcases List.mem_cons.mp h with h | h
          · exact absurd h.symm hk
          · exact h
        · exact fun h => List.mem_cons_of_mem _ h
      by_cases hmem : k ∈ List.map Prod.fst t
      · rw [if_pos hmem, if_pos (this.mpr hmem)]
      · rw [if_neg hmem, if_neg (fun hc => hmem (this.mp hc))]
        simp

theorem lookupAcc_upsert_self (l : Accumulator) (k : String) (v : PageData) :
    lookupAcc (upsert l k v) k = some v := by
  induction l with
  | nil => simp [upsert, lookupAcc]
  | cons e t ih =>
    obtain ⟨k', v'⟩ := e
    by_cases hk : k' = k
    · subst hk; simp [upsert, lookupAcc]
    · simp [upsert, if_neg hk, lookupAcc, hk, ih]

theorem lookupAcc_upsert_other (l : Accumulator) (k k' : String) (v : PageData)
    (h : k' ≠ k) : lookupAcc (upsert l k v) k' = lookupAcc l k' := by
  have hne : ¬ k = k' := fun hc => h hc.symm
  induction l with
  | nil =>
    simp only [upsert, lookupAcc]
    rw [if_neg hne]
  | cons e t ih =>
    obtain ⟨k₀, v₀⟩ := e
    by_cases hk : k₀ = k
    · subst hk
      simp only [upsert, if_pos rfl, lookupAcc]
      rw [if_neg hne, if_neg hne]
    · simp only [upsert, if_neg hk, lookupAcc]
      by_cases hk' : k₀ = k'
      · rw [if_pos hk', if_pos hk']
      · rw [if_neg hk', if_neg hk', ih]

theorem nodup_accKeys_upsert (l : Accumulator) (k : String) (v : PageData)
    (h : (accKeys l).Nodup) : (accKeys (upsert l k v)).Nodup := by
  rw [accKeys_upsert]
  by_cases hmem : k ∈ accKeys l
  · rw [if_pos hmem]; exact h
  · rw [if_neg hmem]
    rw [List.nodup_append]
    exact ⟨h, List.nodup_singleton k, by simpa using hmem⟩

theorem lookupAcc_eq_none (l : Accumulator) (k : String) (h : k ∉ accKeys l) :
    lookupAcc l k = none := by
  induction l with
  | nil => rfl
  | cons e t ih =>
    obtain ⟨k₀, v₀⟩ := e
    simp only [accKeys, List.map_cons, List.mem_cons] at h
    push_neg at h
    simp only [lookupAcc]
    rw [if_neg (fun hc : k₀ = k => h.1 hc.symm)]
    exact ih h.2

theorem acc_ext (l₁ l₂ : Accumulator) (hk : accKeys l₁ = accKeys l₂)
    (hn : (accKeys l₁).Nodup) (hl : ∀ k, lookupAcc l₁ k = lookupAcc l₂ k) :
    l₁ = l₂ := by
  induction l₁ generalizing l₂ with
  | nil =>
    cases l₂ with
    | nil => rfl
    | cons e t => simp [accKeys] at hk
  | cons e t ih =>
    obtain ⟨k₀, v₀⟩ := e
    cases l₂ with
    | nil => simp [accKeys] at hk
    | cons f s =>
      obtain ⟨k₁, v₁⟩ := f
      simp only [accKeys, List.map_cons, List.cons.injEq] at hk
      obtain ⟨hkey, htail⟩ := hk
      subst hkey
      have hv : v₀ = v₁ := by
        have := hl k₀
        simp [lookupAcc] at this
        exact this
      subst hv
      simp only [accKeys, List.map_cons, List.nodup_cons] at hn
      have htl : ∀ k, lookupAcc t k = lookupAcc s k := by
        intro k
        by_cases hk : k₀ = k
        · subst hk
          rw [lookupAcc_eq_none t k₀ hn.1]
          have hs : k₀ ∉ accKeys s := by
            rw [show accKeys s = List.map Prod.fst s from rfl, ← htail]
            exact hn.1
          rw [lookupAcc_eq_none s k₀ hs]
        · have := hl k
          simp only [lookupAcc, if_neg hk] at this
          exact this
      rw [ih s htail hn.2 htl]

theorem accKeys_addPass_subset (acc : Accumulator) (recs : List (String × PageData)) :
    ∀ k, k ∈ accKeys acc → k ∈ accKeys (addPass acc recs) := by
  induction recs generalizing acc with
  | nil => intro k h; exact h
  | cons e t ih =>
    intro k h
    unfold addPass at ih ⊢
    rw [List.foldl_cons]
    apply ih
    rw [accKeys_upsert]
    by_cases hmem : e.1 ∈ accKeys acc
    · rw [if_pos hmem]; exact h
    · rw [if_neg hmem]; exact List.mem_append_left _ h

theorem accKeys_addPass_mem (acc : Accumulator) (recs : List (String × PageData)) :
    ∀ k, k ∈ recs.map Prod.fst → k ∈ accKeys (addPass acc recs) := by
  induction recs generalizing acc with
  | nil => intro k h; simp at h
  | cons e t ih =>
    intro k h
    unfold addPass at ih ⊢
    rw [List.foldl_cons]
    rcases List.mem_cons.mp h with h | h
    · rw [h]
      apply accKeys_addPass_subset
      rw [accKeys_upsert]
      by_cases hmem : e.1 ∈ accKeys acc
      · rw [if_pos hmem]; exact hmem
      · rw [if_neg hmem]; exact List.mem_append_right _ (List.mem_cons_self _ _)
    · exact ih _ k h

theorem accKeys_addPass_eq (S : Accumulator) (recs : List (String × PageData))
    (h : ∀ k, k ∈ recs.map Prod.fst → k ∈ accKeys S) :
    accKeys (addPass S recs) = accKeys S := by
  induction recs generalizing S with
  | nil => rfl
  | cons e t ih =>
    unfold addPass at ih ⊢
    rw [List.foldl_cons]
    have he : e.1 ∈ accKeys S := h e.1 (by simp)
    have hup : accKeys (upsert S e.1 e.2) = accKeys S := by
      rw [accKeys_upsert, if_pos he]
    have hsub : ∀ k, k ∈ t.map Prod.fst → k ∈ accKeys (upsert S e.1 e.2) := by
      intro k hk
      rw [hup]
      exact h k (List.mem_cons_of_mem _ hk)
    rw [ih (upsert S e.1 e.2) hsub]
    exact hup

theorem nodup_accKeys_addPass (acc : Accumulator) (recs : List (String × PageData))
    (h : (accKeys acc).Nodup) : (accKeys (addPass acc recs)).Nodup := by
  induction recs generalizing acc with
  | nil => exact h
  | cons e t ih =>
    unfold addPass at ih ⊢
    rw [List.foldl_cons]
    exact ih _ (nodup_accKeys_upsert _ _ _ h)

theorem lastValue_aux (t : List (String × PageData)) (k : String) (init : Option PageData) :
    t.foldl (fun r e => if e.1 = k then some e.2 else r) init
      = match lastValue t k with
        | some v => some v
        | none => init := by
  induction t generalizing init with
  | nil => simp [lastValue]
  | cons f s ih =>
    rw [List.foldl_cons]
    unfold lastValue
    rw [List.foldl_cons]
    rw [ih, ih]
    cases hs : lastValue s k with
    | some v => simp
    | none =>
      simp only
      by_cases hf : f.1 = k <;> simp [hf]

theorem lookupAcc_addPass (S : Accumulator) (recs : List (String × PageData)) (k : String) :
    lookupAcc (addPass S recs) k
      = match lastValue recs k with
        | some v => some v
        | none => lookupAcc S k := by
  induction recs generalizing S with
  | nil => simp [addPass, lastValue]
  | cons e t ih =>
    unfold addPass at ih ⊢
    rw [List.foldl_cons]
    rw [ih]
    have hcons : lastValue (e :: t) k
        = match lastValue t k with
          | some v => some v
          | none => if e.1 = k then some e.2 else none := by
      unfold lastValue
      rw [List.foldl_cons]
      exact lastValue_aux t k _
    rw [hcons]
    cases ht : lastValue t k with
    | some v => simp
    | none =>
      simp only
      by_cases hk : e.1 = k
      · rw [if_pos hk]
        simp only
        rw [← hk]
        exact lookupAcc_upsert_self S e.1 e.2
      · rw [if_neg hk]
        simp only
        exact lookupAcc_upsert_other S e.1 k e.2 (fun hc => hk hc.symm)

theorem addPass_idem (acc : Accumulator) (recs : List (String × PageData))
    (h : (accKeys acc).Nodup) :
    addPass (addPass acc recs) recs = addPass acc recs := by
  apply acc_ext
  · apply accKeys_addPass_eq
    intro k hk
    exact accKeys_addPass_mem acc recs k hk
  · apply nodup_accKeys_addPass
    exact nodup_accKeys_addPass acc recs h
  · intro k
    rw [lookupAcc_addPass, lookupAcc_addPass]
    cases hlv : lastValue recs k with
    | some v => simp
    | none => simp

/-- Claim C1: if the configured content root does not exist (access fails) at
scan time, the `astro:config:setup` hook does not throw: it returns normally
with the empty sitemap `\x7b nodes: \x7b\x7d, links: [] \x7d` produced by processing the
untouched builder, and the degraded-mode warning is surfaced. -/
theorem missing_content_root_recoverable
    (providedSitemap : Option Sitemap) (command : Command) (e : String)
    (mdScan : Except (String × Accumulator) Accumulator)
    (hcmd : command = .dev ∨ command = .build) :
    configSetupSitemap false providedSitemap command (.error e) mdScan emptyAccumulator
      = .ok { sitemap := some emptySitemap, builder := emptyAccumulator,
              sitemapGenerationFailed := true }
    ∧ toSitemap (process emptyAccumulator) = emptySitemap
    ∧ degradedWarningLogged
        { sitemap := some emptySitemap, builder := emptyAccumulator,
          sitemapGenerationFailed := true } = true := by
  have hempty : toSitemap (process emptyAccumulator) = emptySitemap := rfl
  refine ⟨?_, hempty, rfl⟩
  unfold configSetupSitemap
  rw [if_neg (by simp), if_pos hcmd, hempty]

theorem missing_content_root_recoverable_witness :
    configSetupSitemap false none .build (.error "ENOENT") (.ok emptyAccumulator) emptyAccumulator
      = .ok { sitemap := some emptySitemap, builder := emptyAccumulator,
              sitemapGenerationFailed := true } :=
  (missing_content_root_recoverable none .build "ENOENT" (.ok emptyAccumulator) (Or.inr rfl)).1

/-- Claim C2: failure to persist the sitemap artifact is the one fatal
condition of `astro:build:done`: a failing write is logged and re-thrown
(failing the hook), while for a successful write the hook completes normally
whatever happened in the HTML extraction path. -/
theorem write_failure_is_only_fatal
    (outputPath : String) (sitemapProvided : Bool) (entrySitemap : Sitemap)
    (builder : Accumulator) (accessOutput : Except String Unit)
    (htmlScan : Except (String × Accumulator) Accumulator) (debug : Bool) :
    (∀ e : String,
      (buildDone outputPath sitemapProvided entrySitemap builder accessOutput htmlScan debug
          (.error e)).outcome = .error e
      ∧ .errorWriteFailed ∈ (buildDone outputPath sitemapProvided entrySitemap builder
          accessOutput htmlScan debug (.error e)).logs)
    ∧ (buildDone outputPath sitemapProvided entrySitemap builder accessOutput htmlScan debug
        (.ok ())).outcome = .ok () := by
  refine ⟨fun e => ⟨rfl, ?_⟩, rfl⟩
  show LogEvent.errorWriteFailed ∈ _ ++ [LogEvent.errorWriteFailed]
  exact List.mem_append_right _ (List.mem_cons_self _ _)

/-- Claim C3: when the HTML pass cannot access the build output directory
after the Markdown pass, the failure is recoverable: the hook falls back to
the Markdown-only sitemap obtained by re-processing the builder state on
entry, logs a warning, and (for a successful write) completes normally. -/
theorem html_access_failure_recoverable
    (outputPath : String) (entrySitemap : Sitemap) (builder : Accumulator)
    (e : String) (htmlScan : Except (String × Accumulator) Accumulator)
    (debug : Bool) (writeResult : Except String Unit) :
    (buildDone outputPath false entrySitemap builder (.error e) htmlScan debug
        writeResult).finalSitemap = toSitemap (process builder)
    ∧ .warnHTMLFallback ∈ (buildDone outputPath false entrySitemap builder (.error e) htmlScan
        debug writeResult).logs
    ∧ (writeResult = .ok () → (buildDone outputPath false entrySitemap builder (.error e)
        htmlScan debug writeResult).outcome = .ok ()) := by
  refine ⟨?_, ?_, ?_⟩
  · cases writeResult <;> rfl
  · cases writeResult <;>
      · show LogEvent.warnHTMLFallback ∈ (_ ++ [LogEvent.infoRetrievingHTML, LogEvent.warnHTMLFallback]) ++ _
        exact List.mem_append_left _ (List.mem_append_right _ (by simp))
  · rintro rfl
    rfl

theorem html_access_failure_recoverable_witness :
    (buildDone "dist" false emptySitemap emptyAccumulator (.error "EACCES")
        (.ok emptyAccumulator) false (.ok ())).outcome = .ok () :=
  (html_access_failure_recoverable "dist" emptySitemap emptyAccumulator "EACCES"
      (.ok emptyAccumulator) false (.ok ())).2.2 rfl

/-- Claim C4: sitemap production is deterministic: `process`/`toSitemap` is a
pure function of the accumulator (two calls on the same state agree), and
re-running the Markdown pass on the record sequence of an unchanged directory
leaves the accumulator, and hence the produced nodes and links, identical. -/
theorem sitemap_build_deterministic (acc : Accumulator) (recs : List (String × PageData))
    (h : (accKeys acc).Nodup) :
    toSitemap (process acc) = toSitemap (process acc)
    ∧ addMDContentFolder (addMDContentFolder acc recs) recs = addMDContentFolder acc recs
    ∧ (toSitemap (process (addMDContentFolder (addMDContentFolder acc recs) recs))).nodes
        = (toSitemap (process (addMDContentFolder acc recs))).nodes
    ∧ (toSitemap (process (addMDContentFolder (addMDContentFolder acc recs) recs))).links
        = (toSitemap (process (addMDContentFolder acc recs))).links := by
  have hidem : addMDContentFolder (addMDContentFolder acc recs) recs
      = addMDContentFolder acc recs := addPass_idem acc recs h
  exact ⟨rfl, hidem, by rw [hidem], by rw [hidem]⟩

theorem sitemap_build_deterministic_witness :
    addMDContentFolder (addMDContentFolder emptyAccumulator
        [("a", ⟨"A", ["t"], none, [⟨"b", false⟩]⟩)]) [("a", ⟨"A", ["t"], none, [⟨"b", false⟩]⟩)]
      = addMDContentFolder emptyAccumulator [("a", ⟨"A", ["t"], none, [⟨"b", false⟩]⟩)] :=
  (sitemap_build_deterministic emptyAccumulator [("a", ⟨"A", ["t"], none, [⟨"b", false⟩]⟩)]
      (by decide)).2.1

/-- Claim C6: the serialized sitemap's formatting is controlled by the debug
flag: with `debug = true` the JSON document is rendered with indent 2, and
with `debug = false` it is rendered compact. -/
theorem debug_flag_controls_formatting
    (outputPath : String) (sitemapProvided : Bool) (entrySitemap : Sitemap)
    (builder : Accumulator) (accessOutput : Except String Unit)
    (htmlScan : Except (String × Accumulator) Accumulator)
    (writeResult : Except String Unit) :
    (buildDone outputPath sitemapProvided entrySitemap builder accessOutput htmlScan true
        writeResult).writeContent
      = renderPretty 2 0 (sitemapToJson (buildDone outputPath sitemapProvided entrySitemap
          builder accessOutput htmlScan true writeResult).finalSitemap)
    ∧ (buildDone outputPath sitemapProvided entrySitemap builder accessOutput htmlScan false
        writeResult).writeContent
      = renderCompact (sitemapToJson (buildDone outputPath sitemapProvided entrySitemap
          builder accessOutput htmlScan false writeResult).finalSitemap) := by
  constructor <;> cases writeResult <;> rfl

/-- Claim C7: the finalized sitemap is always written to the fixed relative
path `sitegraph/sitemap.json` under the build output directory, for every
configuration and regardless of whether the sitemap was crawled or
user-supplied. -/
theorem sitemap_written_to_fixed_path
    (outputPath : String) (sitemapProvided : Bool) (entrySitemap : Sitemap)
    (builder : Accumulator) (accessOutput : Except String Unit)
    (htmlScan : Except (String × Accumulator) Accumulator) (debug : Bool)
    (writeResult : Except String Unit) :
    (buildDone outputPath sitemapProvided entrySitemap builder accessOutput htmlScan debug
        writeResult).writePath = outputPath ++ "/sitegraph/sitemap.json" := by
  cases writeResult <;> rfl

/-- Claim C8: the trailing-slash policy handed to the builder is a two-valued
collapse of the host configuration: `setTrailingSlash` receives `false`
exactly for the value `'never'` and `true` for everything else — in
particular `'ignore'` is treated the same as `'always'`. -/
theorem trailing_slash_collapse :
    addTrailingSlash "never" = false ∧ addTrailingSlash "ignore" = true
    ∧ addTrailingSlash "always" = true
    ∧ ∀ s : String, s ≠ "never" → addTrailingSlash s = true := by
  refine ⟨by decide, by decide, by decide, fun s hs => ?_⟩
  unfold addTrailingSlash
  simp [hs]

theorem trailing_slash_collapse_witness : addTrailingSlash "ignore" = true :=
  trailing_slash_collapse.2.2.2 "ignore" (by decide)

/-- Claim C5: with content root, base path, and trailing-slash policy held
fixed, the path normalizer is idempotent on valid raw paths:
`normalize (normalize p) = normalize p`, so a logical page always receives a
byte-identical canonical id. -/
theorem normalize_idempotent (p contentRoot basePath : String) (slash : Bool)
    (hbase : ValidBasePath basePath.data)
    (hp : ValidRawPath contentRoot.data basePath.data p.data) :
    normalize (normalize p contentRoot basePath slash) contentRoot basePath slash
      = normalize p contentRoot basePath slash := by
  show (⟨normalizeL contentRoot.data basePath.data slash
      (normalizeL contentRoot.data basePath.data slash p.data)⟩ : String)
    = ⟨normalizeL contentRoot.data basePath.data slash p.data⟩
  rw [normalizeL_idem contentRoot.data basePath.data slash p.data hbase hp]

theorem normalize_idempotent_witness :
    normalize (normalize "src/content/docs/guide/index.md" "src/content/docs" "docs" true)
        "src/content/docs" "docs" true
      = normalize "src/content/docs/guide/index.md" "src/content/docs" "docs" true :=
  normalize_idempotent "src/content/docs/guide/index.md" "src/content/docs" "docs" true
    (by decide) (by decide)

/-- Claim C9 as stated is refuted at the input `"#"` with base
`ftp://example.com`: `sanitizeURL` returns the original string `"#"`
unchanged even though the url does not parse to an `http:`/`https:` protocol
(the `'#'` it returns is the rejection default that happens to coincide with
the input), so the only-if direction of the claimed equivalence fails. -/
theorem sanitizeURL_identity_iff_refuted :
    ¬ (sanitizeURL (urlProtocol (some "ftp:")) (some "#") = "#"
        → ∃ protocol, urlProtocol (some "ftp:") "#" = some protocol
            ∧ (protocol = "http:" ∨ protocol = "https:")) := by
  intro h
  obtain ⟨protocol, hp, hor⟩ := h rfl
  have hv : some "ftp:" = some protocol := hp
  have : protocol = "ftp:" := (Option.some.inj hv).symm
  subst this
  rcases hor with h1 | h1
  · exact absurd h1 (by decide)
  · exact absurd h1 (by decide)

/-- Claim C9 (amended): `sanitizeURL` returns the original url string when it
is non-empty and parses to a URL with protocol exactly `http:` or `https:`;
in every other case — null/undefined, empty, unparseable input, or any other
protocol — it returns the safe default `'#'` (which coincides with the
original exactly when the input is itself `"#"`), and it is a total function
(never throws). -/
theorem sanitizeURL_characterization (parse : String → Option String)
    (url : Option String) :
    (∀ u protocol, url = some u → u ≠ "" → parse u = some protocol
        → (protocol = "http:" ∨ protocol = "https:") → sanitizeURL parse url = u)
    ∧ (∀ u protocol, url = some u → u ≠ "" → parse u = some protocol
        → ¬(protocol = "http:" ∨ protocol = "https:") → sanitizeURL parse url = "#")
    ∧ (∀ u, url = some u → u ≠ "" → parse u = none → sanitizeURL parse url = "#")
    ∧ (url = none ∨ url = some "" → sanitizeURL parse url = "#") := by
  refine ⟨?_, ?_, ?_, ?_⟩
  · rintro u protocol rfl hne hp hor
    simp only [sanitizeURL]
    rw [if_neg hne, hp]
    show (if protocol = "http:" ∨ protocol = "https:" then u else "#") = u
    rw [if_pos hor]
  · rintro u protocol rfl hne hp hor
    simp only [sanitizeURL]
    rw [if_neg hne, hp]
    show (if protocol = "http:" ∨ protocol = "https:" then u else "#") = "#"
    rw [if_neg hor]
  · rintro u rfl hne hp
    simp only [sanitizeURL]
    rw [if_neg hne, hp]
  · rintro (rfl | rfl)
    · rfl
    · rfl

theorem sanitizeURL_characterization_witness :
    sanitizeURL (urlProtocol none) (some "https://example.com/a") = "https://example.com/a" :=
  (sanitizeURL_characterization (urlProtocol none) (some "https://example.com/a")).1
    "https://example.com/a" "https:" rfl (by decide) (by decide) (Or.inr rfl)

/-- Claim C10: `getHexColor` is total and never propagates a parse error: it
returns the fallback whenever `sanitizeColorValue` rejects the input
(null/non-string, empty or whitespace-only, containing `var(`, or equal to
`none`/`inherit`/`initial`/`unset` after stripping a trailing `!important`)
or whenever the chroma parse throws; a successful parse's hex value is
returned; and `transparent` is rewritten to `rgba(0, 0, 0, 0)` rather than
rejected. -/
theorem getHexColor_total (chromaHex : String → Option String) (color : Option String)
    (fallback : String) :
    (sanitizeColorValue color = none → getHexColor chromaHex color fallback = fallback)
    ∧ (∀ s, sanitizeColorValue color = some s → chromaHex s = none
        → getHexColor chromaHex color fallback = fallback)
    ∧ (∀ s h, sanitizeColorValue color = some s → chromaHex s = some h
        → getHexColor chromaHex color fallback = h)
    ∧ sanitizeColorValue none = none
    ∧ (∀ c, jsTrim c = "" → sanitizeColorValue (some c) = none)
    ∧ (∀ c, containsSub "var(".data (stripImportant (jsTrim c).data) = true
        → sanitizeColorValue (some c) = none)
    ∧ (∀ c w, w ∈ (["none", "inherit", "initial", "unset"] : List String)
        → stripImportant (jsTrim c).data = w.data → sanitizeColorValue (some c) = none)
    ∧ sanitizeColorValue (some "transparent") = some "rgba(0, 0, 0, 0)" := by
  refine ⟨?_, ?_, ?_, rfl, ?_, ?_, ?_, by decide⟩
  · intro h
    simp only [getHexColor, h]
  · intro s hs hc
    simp only [getHexColor, hs, hc]
  · intro s h hs hc
    simp only [getHexColor, hs, hc]
  · intro c h
    by_cases hc : c = ""
    · simp only [sanitizeColorValue, if_pos hc]
    · simp only [sanitizeColorValue, if_neg hc]
      have hd : (jsTrim c).data = [] := by rw [h]
      rw [if_pos (by simp [hd])]
  · intro c h
    by_cases hc : c = ""
    · exfalso
      rw [hc] at h
      exact absurd h (by decide)
    · simp only [sanitizeColorValue, if_neg hc]
      by_cases hlen : (jsTrim c).data.length = 0
      · exfalso
        have hd : (jsTrim c).data = [] := List.length_eq_zero.mp hlen
        rw [hd] at h
        exact absurd h (by decide)
      · rw [if_neg hlen, if_pos h]
  · intro c w hw hcw
    simp only [List.mem_cons, List.mem_singleton, List.not_mem_nil, or_false] at hw
    have hwne : w.data ≠ [] := by
      rcases hw with rfl | rfl | rfl | rfl <;> decide
    by_cases hc : c = ""
    · exfalso
      rw [hc] at hcw
      have hnil : (stripImportant (jsTrim "").data) = [] := by decide
      rw [hnil] at hcw
      exact hwne hcw.symm
    · simp only [sanitizeColorValue, if_neg hc]
      by_cases hlen : (jsTrim c).data.length = 0
      · exfalso
        have hd : (jsTrim c).data = [] := List.length_eq_zero.mp hlen
        rw [hd] at hcw
        have hnil : stripImportant [] = [] := by decide
        rw [hnil] at hcw
        exact hwne hcw.symm
      · rw [if_neg hlen]
        rw [hcw]
        have hvar : containsSub "var(".data w.data = false := by
          rcases hw with rfl | rfl | rfl | rfl <;> decide
        rw [hvar]
        simp only [Bool.false_eq_true, if_false]
        have hmem : w.data = "none".data ∨ w.data = "transparent".data
            ∨ w.data = "inherit".data ∨ w.data = "initial".data ∨ w.data = "unset".data := by
          rcases hw with rfl | rfl | rfl | rfl
          · exact Or.inl rfl
          · exact Or.inr (Or.inr (Or.inl rfl))
          · exact Or.inr (Or.inr (Or.inr (Or.inl rfl)))
          · exact Or.inr (Or.inr (Or.inr (Or.inr rfl)))
        rw [if_pos hmem]
        have hnt : ¬ w.data = "transparent".data := by
          rcases hw with rfl | rfl | rfl | rfl <;> decide
        rw [if_neg hnt]

theorem getHexColor_total_witness :
    getHexColor (fun _ => none) (some "var(--slsg-node-color)") "#000000" = "#000000" :=
  (getHexColor_total (fun _ => none) (some "var(--slsg-node-color)") "#000000").1 (by decide)

end SiteGraph
